import Mathlib

/-!
Shallow embedding of `plugins/document-editor/mcp-server/web_ui.py` (the
markdown block segmenter `parse_markdown_paragraphs`) and of
`plugins/document-editor/mcp-server/server.py` (the submit endpoint
`EditorHTTPHandler.do_POST` and the session coordinators
`collect_comments_impl` / `review_changes_impl`).

Documents are modelled as `String`s; internally a document is a list of
lines (`List Char` each), obtained by splitting on `'\n'` exactly as
Python's `str.split('\n')` does.  Machine-level concerns (sockets, threads,
the browser) are modelled by an explicit list of POST requests processed by
the listener during a session, and by a resource record tracking the
scratch directory and the listener.
-/

namespace DocEditor

/-- ASCII whitespace recognised by Python's `str.strip()` and the regex
class `\s`: space, tab, newline, carriage return, vertical tab, form feed. -/
def isPySpace (c : Char) : Bool :=
  c == ' ' || c == '\t' || c == '\n' || c == '\r' ||
  c == Char.ofNat 11 || c == Char.ofNat 12

/-- Python `str.strip()`: remove leading and trailing whitespace. -/
def pyStrip (l : List Char) : List Char :=
  ((l.dropWhile isPySpace).reverse.dropWhile isPySpace).reverse

/-- A single line of a document (no `'\n'` inside). -/
abbrev Line := List Char

/-- Python `content.split('\n')` on the character list of a document. -/
def splitLines : List Char → List Line
  | [] => [[]]
  | c :: cs =>
    if c = '\n' then [] :: splitLines cs
    else
      match splitLines cs with
      | [] => [[c]]
      | l :: ls => (c :: l) :: ls

/-- Python `'\n'.join(...)` on lines. -/
def joinLines : List Line → List Char
  | [] => []
  | [l] => l
  | l :: l' :: ls => l ++ '\n' :: joinLines (l' :: ls)

/-- The six block types of `web_ui.Paragraph.block_type`. -/
inductive BlockType where
  | heading
  | paragraph
  | list
  | code
  | blockquote
  | hr
deriving DecidableEq, Repr

/-- `web_ui.Paragraph`: one block of the segmented document. -/
structure Paragraph where
  index : Nat
  /-- plain text content (`display_text`) -/
  text : List Char
  /-- original markdown slice -/
  raw : List Char
  block_type : BlockType
deriving DecidableEq, Repr

/-- `stripped.startswith('```')`: the line opens/closes a fenced code region. -/
def isFence (l : Line) : Bool :=
  List.isPrefixOf ['`', '`', '`'] (pyStrip l)

/-- `stripped == ''`: blank line. -/
def isBlank (l : Line) : Bool :=
  (pyStrip l).isEmpty

/-- `re.match(r'^(-{3,}|\*{3,}|_{3,})$', stripped)`: the stripped line is
three or more repetitions of a single character among `-`, `*`, `_`. -/
def isHr (l : Line) : Bool :=
  let s := pyStrip l
  3 ≤ s.length && (s.all (· == '-') || s.all (· == '*') || s.all (· == '_'))

/-- `re.match(r'^#{1,6}\s', stripped)`: one to six `#` followed by a
whitespace character. -/
def isHeading (l : Line) : Bool :=
  let s := pyStrip l
  let hashes := s.takeWhile (· == '#')
  1 ≤ hashes.length && hashes.length ≤ 6 &&
    (match (s.drop hashes.length).head? with
     | some c => isPySpace c
     | none => false)

/-- `re.match(r'^(\s*[-*+]|\s*\d+\.)\s', line)`: optionally indented list
marker (`-`, `*`, `+`, or digits followed by `.`) followed by whitespace.
Applied to the raw line, not the stripped one. -/
def isListLine (l : Line) : Bool :=
  let rest := l.dropWhile isPySpace
  match rest with
  | c :: d :: _ =>
    if c == '-' || c == '*' || c == '+' then isPySpace d
    else
      let ds := rest.takeWhile (·.isDigit)
      match rest.drop ds.length with
      | '.' :: e :: _ => !ds.isEmpty && isPySpace e
      | _ => false
  | _ => false

/-- `stripped.startswith('>')`. -/
def isBqStart (l : Line) : Bool :=
  (pyStrip l).head? == some '>'

/-- `re.sub(r'^#+\s*', '', text)`: if the text starts with `#`, drop the
leading `#` run and any following whitespace. -/
def stripHeadingMarker (l : List Char) : List Char :=
  match l with
  | '#' :: _ => (l.dropWhile (· == '#')).dropWhile isPySpace
  | _ => l

/-- Fence-line removal in `flush` for code blocks: drop the first line if it
starts with three backticks (on the raw line), then drop the last remaining
line under the same test. -/
def dropFences (ls : List Line) : List Line :=
  let ls1 :=
    match ls with
    | f :: rest => if List.isPrefixOf ['`', '`', '`'] f then rest else f :: rest
    | [] => []
  match ls1.getLast? with
  | some lastL => if List.isPrefixOf ['`', '`', '`'] lastL then ls1.dropLast else ls1
  | none => ls1

/-- `re.sub(r'^>\s?', '', text, flags=re.MULTILINE)`: at each line start of
the original text, remove one `>` and optionally one following whitespace
character (which, `\s` including `'\n'`, may be the newline itself).  The
Boolean argument records whether the current position is a line start of
the original text. -/
def bqStrip : Bool → List Char → List Char
  | _, [] => []
  | atStart, c :: rest =>
    if atStart && c == '>' then
      match rest with
      | [] => []
      | d :: rest2 =>
        if isPySpace d then bqStrip (d == '\n') rest2
        else d :: bqStrip (d == '\n') rest2
    else c :: bqStrip (c == '\n') rest

/-- Display-text computation of `flush`, per block type. -/
def textOf (t : BlockType) (ls : List Line) : List Char :=
  match t with
  | .heading => stripHeadingMarker (joinLines ls)
  | .code => joinLines (dropFences ls)
  | .blockquote => bqStrip true (joinLines ls)
  | _ => joinLines ls

/-- The mutable scan state of `parse_markdown_paragraphs`. -/
structure ParseState where
  paragraphs : List Paragraph
  current_block : List Line
  current_type : BlockType
  in_code_block : Bool
  idx : Nat
deriving DecidableEq, Repr

/-- The paragraph that `flush` appends for a non-empty buffer. -/
def mkPara (st : ParseState) : Paragraph :=
  { index := st.idx
    text := pyStrip (textOf st.current_type st.current_block)
    raw := joinLines st.current_block
    block_type := st.current_type }

/-- `flush` of `parse_markdown_paragraphs`: emit the buffered block (if any)
and reset the buffer and provisional type. -/
def flush (st : ParseState) : ParseState :=
  if st.current_block = [] then st
  else
    { paragraphs := st.paragraphs ++ [mkPara st]
      current_block := []
      current_type := .paragraph
      in_code_block := st.in_code_block
      idx := st.idx + 1 }

/-- One iteration of the `for line in lines` loop of
`parse_markdown_paragraphs`, following the Python branch order exactly:
code-fence toggle, in-code accumulation, blank line, horizontal rule,
heading, list item, blockquote, plain paragraph. -/
def step (st : ParseState) (line : Line) : ParseState :=
  if isFence line then
    if st.in_code_block then
      flush { st with current_block := st.current_block ++ [line], in_code_block := false }
    else
      let st1 := flush st
      { st1 with in_code_block := true, current_type := .code,
                 current_block := st1.current_block ++ [line] }
  else if st.in_code_block then
    { st with current_block := st.current_block ++ [line] }
  else if isBlank line then
    flush st
  else if isHr line then
    let st1 := flush st
    flush { st1 with current_block := st1.current_block ++ [line], current_type := .hr }
  else if isHeading line then
    let st1 := flush st
    flush { st1 with current_block := st1.current_block ++ [line], current_type := .heading }
  else if isListLine line then
    if st.current_type ≠ .list then
      let st1 := flush st
      { st1 with current_type := .list, current_block := st1.current_block ++ [line] }
    else
      { st with current_block := st.current_block ++ [line] }
  else if isBqStart line then
    if st.current_type ≠ .blockquote then
      let st1 := flush st
      { st1 with current_type := .blockquote, current_block := st1.current_block ++ [line] }
    else
      { st with current_block := st.current_block ++ [line] }
  else
    if st.current_type ≠ .paragraph then
      let st1 := flush st
      { st1 with current_type := .paragraph, current_block := st1.current_block ++ [line] }
    else
      { st with current_type := .paragraph, current_block := st.current_block ++ [line] }

/-- Initial scan state: empty accumulator, empty buffer, provisional type
`paragraph`, not inside a code fence, next index 0. -/
def initState : ParseState :=
  { paragraphs := [], current_block := [], current_type := .paragraph,
    in_code_block := false, idx := 0 }

/-- The scan over a list of lines, with the final `flush()`. -/
def parseLines (ls : List Line) : List Paragraph :=
  (flush (ls.foldl step initState)).paragraphs

/-- `web_ui.parse_markdown_paragraphs`. -/
def parse_markdown_paragraphs (content : String) : List Paragraph :=
  parseLines (splitLines content.toList)

/-- The spec's reconstruction of a document from its blocks: the raw texts
rejoined with blank-line separators (`'\n\n'.join`) in index order. -/
def joinBlocks : List (List Char) → List Char
  | [] => []
  | [r] => r
  | r :: r' :: rs => r ++ '\n' :: '\n' :: joinBlocks (r' :: rs)

/-- Reconstructed document, as a string. -/
def reconstructDoc (ps : List Paragraph) : String :=
  String.mk (joinBlocks (ps.map (·.raw)))

/-- The client-visible content of a block: its type and display text. -/
def visible (p : Paragraph) : BlockType × List Char :=
  (p.block_type, p.text)

/-! ## Well-formedness of scanner output

The following predicates record, for each block type, exactly the branch
conditions under which the scanner appends a line to a block of that type.
They are invariants of `parse_markdown_paragraphs`, used to prove the
round-trip property. -/

/-- Branch conditions of the `hr` branch. -/
def LHr (l : Line) : Prop :=
  isFence l = false ∧ isBlank l = false ∧ isHr l = true

/-- Branch conditions of the `heading` branch. -/
def LHeading (l : Line) : Prop :=
  isFence l = false ∧ isBlank l = false ∧ isHr l = false ∧ isHeading l = true

/-- Branch conditions of the `list` branch. -/
def LList (l : Line) : Prop :=
  isFence l = false ∧ isBlank l = false ∧ isHr l = false ∧ isHeading l = false ∧
    isListLine l = true

/-- Branch conditions of the `blockquote` branch. -/
def LBq (l : Line) : Prop :=
  isFence l = false ∧ isBlank l = false ∧ isHr l = false ∧ isHeading l = false ∧
    isListLine l = false ∧ isBqStart l = true

/-- Branch conditions of the plain-paragraph branch. -/
def LPara (l : Line) : Prop :=
  isFence l = false ∧ isBlank l = false ∧ isHr l = false ∧ isHeading l = false ∧
    isListLine l = false ∧ isBqStart l = false

/-- The line predicate a pending (not immediately flushed) block of type `t`
accumulates under. -/
def pendPred : BlockType → Line → Prop
  | .paragraph => LPara
  | .list => LList
  | .blockquote => LBq
  | _ => fun _ => False

/-- Shapes of the line lists of completely flushed blocks, per type. -/
inductive GoodLines : BlockType → List Line → Prop where
  | hr {l : Line} : LHr l → GoodLines .hr [l]
  | heading {l : Line} : LHeading l → GoodLines .heading [l]
  | para {ls : List Line} : ls ≠ [] → (∀ l ∈ ls, LPara l) → GoodLines .paragraph ls
  | list {ls : List Line} : ls ≠ [] → (∀ l ∈ ls, LList l) → GoodLines .list ls
  | bq {ls : List Line} : ls ≠ [] → (∀ l ∈ ls, LBq l) → GoodLines .blockquote ls
  | codeClosed {f g : Line} {mid : List Line} : isFence f = true →
      (∀ l ∈ mid, isFence l = false) → isFence g = true →
      GoodLines .code (f :: mid ++ [g])

/-- Shape of the buffer while a fenced code region is open: the opening
fence followed by non-fence lines. -/
inductive OpenCodeLines : List Line → Prop where
  | mk {f : Line} {rest : List Line} : isFence f = true →
      (∀ l ∈ rest, isFence l = false) → OpenCodeLines (f :: rest)

/-- No newline character occurs in any of the lines. -/
def nlFree (ls : List Line) : Prop :=
  ∀ l ∈ ls, ∀ c ∈ l, c ≠ '\n'

/-- A paragraph is internally consistent: its raw text splits into
newline-free lines and its display text is the stripped per-type text of
those lines. -/
def goodCore (p : Paragraph) : Prop :=
  nlFree (splitLines p.raw) ∧
    p.text = pyStrip (textOf p.block_type (splitLines p.raw))

/-- A consistent paragraph whose lines have the completely flushed shape. -/
def goodClosed (p : Paragraph) : Prop :=
  goodCore p ∧ GoodLines p.block_type (splitLines p.raw)

/-- A consistent code paragraph flushed from a fence left open at
end of input. -/
def goodOpen (p : Paragraph) : Prop :=
  goodCore p ∧ p.block_type = .code ∧ OpenCodeLines (splitLines p.raw)

/-- A paragraph the final flush may produce. -/
def goodFinal (p : Paragraph) : Prop :=
  goodClosed p ∨ goodOpen p

/-- Invariant of the pending buffer when no code fence is open. -/
def PendInv : BlockType → List Line → Prop
  | .paragraph, ls => ∀ l ∈ ls, LPara l
  | .list, ls => ls ≠ [] ∧ ∀ l ∈ ls, LList l
  | .blockquote, ls => ls ≠ [] ∧ ∀ l ∈ ls, LBq l
  | _, _ => False

/-- The scan-state invariant of `parse_markdown_paragraphs`. -/
def StInv (st : ParseState) : Prop :=
  (∀ p ∈ st.paragraphs, goodClosed p) ∧
  nlFree st.current_block ∧
  st.idx = st.paragraphs.length ∧
  st.paragraphs.map Paragraph.index = List.range st.paragraphs.length ∧
  (if st.in_code_block then
    st.current_type = .code ∧ OpenCodeLines st.current_block
   else PendInv st.current_type st.current_block)

/-- Shape of a whole scanner output: all blocks completely flushed, except
that the final block may be an open code block. -/
def BlocksOK : List Paragraph → Prop
  | [] => True
  | [p] => goodFinal p
  | p :: ps => goodClosed p ∧ BlocksOK ps

/-- A state with an empty buffer, ready to scan a fresh block. -/
def cleanSt (acc : List Paragraph) (n : Nat) : ParseState :=
  { paragraphs := acc, current_block := [], current_type := .paragraph,
    in_code_block := false, idx := n }

/-- The paragraph flushed for a block of type `t` with lines `ls` at
index `n`. -/
def emitPara (n : Nat) (t : BlockType) (ls : List Line) : Paragraph :=
  { index := n, text := pyStrip (textOf t ls), raw := joinLines ls, block_type := t }

/-- The same paragraphs with indices renumbered from `n`. -/
def reindex : Nat → List Paragraph → List Paragraph
  | _, [] => []
  | n, p :: ps => { p with index := n } :: reindex (n + 1) ps

/-- Lines of consecutive blocks interleaved with single blank separator
lines: the line list of the reconstructed document. -/
def sepBlank : List (List Line) → List Line
  | [] => []
  | [b] => b
  | b :: b' :: bs => b ++ [] :: sepBlank (b' :: bs)

/-! ## Server model (`server.py`) -/

/-- JSON values, as produced by `json.loads` on a well-formed body. -/
inductive Json where
  | null
  | bool (b : Bool)
  | num (n : Int)
  | str (s : String)
  | arr (xs : List Json)
  | obj (fields : List (String × Json))

/-- The `"status"` field of a JSON object, when present and a string. -/
def getStatus : Json → Option String
  | .obj fields =>
    match fields.lookup "status" with
    | some (.str s) => some s
    | _ => none
  | _ => none

/-- The session state shared between the listener and the waiting
coordinator: the module-level `_result` slot and `_result_event` flag. -/
structure HostState where
  result : Option Json
  event : Bool

/-- `EditorHTTPHandler.do_POST`: a POST request carrying `body` (the decoded
JSON, or `none` when `json.loads` raises) against path `path`.  Returns the
HTTP status code sent and the updated session state.  On `/submit` with a
well-formed body the result slot is assigned and the event set; on a
malformed body the handler answers 500 and changes nothing; other paths
answer 404. -/
def do_POST (path : String) (body : Option Json) (st : HostState) : Nat × HostState :=
  if path = "/submit" then
    match body with
    | some j => (200, { result := some j, event := true })
    | none => (500, st)
  else
    (404, st)

/-- The session state after the listener has processed a sequence of POST
requests, starting from the reset state (`_result = None`, event cleared). -/
def runPosts (posts : List (String × Option Json)) : HostState :=
  posts.foldl (fun st pr => (do_POST pr.1 pr.2 st).2) { result := none, event := false }

/-- Session resources: the scratch directory (`serve_dir`) and the HTTP
listener. -/
structure Resources where
  scratchExists : Bool
  listenerOpen : Bool
deriving DecidableEq, Repr

/-- HTTP-status class of client errors. -/
def isClientError (code : Nat) : Prop :=
  400 ≤ code ∧ code < 500

/-- The hard-coded wait bound (seconds) of `collect_comments_impl` and
`review_changes_impl`. -/
def timeout : Nat := 7200

/-- `{"status": "error", "message": msg}`. -/
def errorResult (msg : String) : Json :=
  .obj [("status", .str "error"), ("message", .str msg)]

/-- `{"status": "timeout", "message": "Timed out after 2 hours"}`. -/
def timeoutResult : Json :=
  .obj [("status", .str "timeout"), ("message", .str "Timed out after 2 hours")]

/-- Outcome of a session: the returned JSON, the resource state at the
moment of return, and whether a listener was ever opened. -/
structure SessionReturn where
  result : Json
  resources : Resources
  serverStarted : Bool

/-- The shared body of both coordinators after validation: create the
scratch area, open the listener, wait for the event or the timeout, shut
the listener down, pick the outcome, and remove the scratch area in the
`finally` block.  `posts` is the list of POST requests the listener
processed before the wait returned; the wait returns `False` (timeout)
exactly when no processed request set the event. -/
def runSession (posts : List (String × Option Json)) : SessionReturn :=
  let r1 : Resources := { scratchExists := true, listenerOpen := false }
  let r2 : Resources := { r1 with listenerOpen := true }
  let st := runPosts posts
  let r3 : Resources := { r2 with listenerOpen := false }
  let outcome :=
    if !st.event then timeoutResult
    else
      match st.result with
      | none => errorResult "No result received"
      | some r => r
  let r4 : Resources := { r3 with scratchExists := false }
  { result := outcome, resources := r4, serverStarted := true }

/-- `collect_comments_impl`: segment the content; with no blocks, fail fast
with a status-`error` result before any scratch area or listener exists;
otherwise run a session. -/
def collect_comments_impl (content : String) (posts : List (String × Option Json)) :
    SessionReturn :=
  let paragraphs := parse_markdown_paragraphs content
  if paragraphs = [] then
    { result := errorResult "No paragraphs found in the content"
      resources := { scratchExists := false, listenerOpen := false }
      serverStarted := false }
  else
    runSession posts

/-- One proposed change handed to `review_changes`. -/
structure Change where
  paragraph_index : Nat
  original : String
  suggested : String
  instruction : String
deriving DecidableEq, Repr

/-- `review_changes_impl`: with an empty change list, fail fast with a
status-`error` result before any scratch area or listener exists; otherwise
run a session. -/
def review_changes_impl (changes : List Change) (posts : List (String × Option Json)) :
    SessionReturn :=
  if changes = [] then
    { result := errorResult "No changes provided"
      resources := { scratchExists := false, listenerOpen := false }
      serverStarted := false }
  else
    runSession posts

end DocEditor

namespace DocEditor

/-! ## Helper facts about the server model -/

/-- The payload the comment UI sends on submit. -/
def submittedPayload : Json :=
  .obj [("status", .str "submitted")]

/-- The payload the comment UI sends on cancel. -/
def cancelledPayload : Json :=
  .obj [("status", .str "cancelled")]

/-- A syntactically valid JSON object whose status is outside the
documented status set. -/
def weirdPayload : Json :=
  .obj [("status", .str "weird")]

theorem runPosts_status (posts : List (String × Option Json))
    (h : ∀ pr ∈ posts, pr.1 = "/submit" → ∀ j, pr.2 = some j →
      getStatus j = some "submitted" ∨ getStatus j = some "cancelled") :
    (runPosts posts).result = none ∨
      ∃ j, (runPosts posts).result = some j ∧
        (getStatus j = some "submitted" ∨ getStatus j = some "cancelled") := by
  have general :
      ∀ (ps : List (String × Option Json)) (st : HostState),
        (∀ pr ∈ ps, pr.1 = "/submit" → ∀ j, pr.2 = some j →
          getStatus j = some "submitted" ∨ getStatus j = some "cancelled") →
        (st.result = none ∨
          ∃ j, st.result = some j ∧
            (getStatus j = some "submitted" ∨ getStatus j = some "cancelled")) →
        ((ps.foldl (fun st pr => (do_POST pr.1 pr.2 st).2) st).result = none ∨
          ∃ j, (ps.foldl (fun st pr => (do_POST pr.1 pr.2 st).2) st).result = some j ∧
            (getStatus j = some "submitted" ∨ getStatus j = some "cancelled")) := by
    intro ps
    induction ps with
    | nil => intro st _ hst; exact hst
    | cons pr ps ih =>
      intro st hps hst
      refine ih _ (fun q hq => hps q (List.mem_cons_of_mem _ hq)) ?_
      by_cases hpath : pr.1 = "/submit"
      · cases hbody : pr.2 with
        | none => simpa [do_POST, hpath, hbody] using hst
        | some j =>
          right
          refine ⟨j, ?_, hps pr (List.mem_cons_self _ _) hpath j hbody⟩
          simp [do_POST, hpath, hbody]
      · simpa [do_POST, hpath] using hst
  exact general posts { result := none, event := false } h (Or.inl rfl)

theorem runSession_resources (posts : List (String × Option Json)) :
    (runSession posts).resources = { scratchExists := false, listenerOpen := false } := rfl

/-! ## Claim C1 -/

/-- C1 is violated by the code: after a first well-formed submission with
status "submitted" has been stored, a second submission with status
"cancelled" also receives a 200 response, and the bound result is then the
second submission's content (status "cancelled"), not the first one's. -/
theorem second_submit_overwrites_bound_result :
    (do_POST "/submit" (some submittedPayload) { result := none, event := false }).1 = 200 ∧
    (do_POST "/submit" (some cancelledPayload)
        (do_POST "/submit" (some submittedPayload) { result := none, event := false }).2).1 = 200 ∧
    (do_POST "/submit" (some cancelledPayload)
        (do_POST "/submit" (some submittedPayload)
          { result := none, event := false }).2).2.result.map getStatus = some (some "cancelled") ∧
    getStatus submittedPayload = some "submitted" ∧
    ("cancelled" : String) ≠ "submitted" := by
  refine ⟨rfl, rfl, rfl, rfl, by decide⟩

/-- C1 (amended): the submit endpoint is last-write-wins, not
at-most-one-write: every well-formed JSON submission receives a success
response, sets the completion signal, and replaces the bound result with
its own content, whether or not completion was already signaled. -/
theorem do_POST_submit_last_write_wins (st : HostState) (j : Json) :
    do_POST "/submit" (some j) st = (200, { result := some j, event := true }) := rfl

/-! ## Claim C7 -/

/-- C7 is violated in one respect: on a body that is not valid JSON the
handler answers HTTP 500, which is a server-error code, not a client-error
(4xx) code. -/
theorem malformed_body_not_client_error :
    (do_POST "/submit" none { result := none, event := false }).1 = 500 ∧
    ¬ isClientError (do_POST "/submit" none { result := none, event := false }).1 := by
  exact ⟨rfl, by simp [do_POST, isClientError]⟩

/-- C7 (amended): on a POST to /submit whose body is not valid JSON the
handler responds with an error status (HTTP 500, a server-error code rather
than a 4xx client error), does not set the completion signal, and leaves
the bound result unchanged, so the session continues waiting. -/
theorem do_POST_malformed_keeps_state (st : HostState) :
    (do_POST "/submit" none st).1 = 500 ∧
    (do_POST "/submit" none st).2.event = st.event ∧
    (do_POST "/submit" none st).2.result = st.result :=
  ⟨rfl, rfl, rfl⟩

/-! ## Claim C2 -/

/-- C2 is violated by the code: posting the well-formed JSON object
`{"status": "weird"}` to a collect-comments session makes the operation
return that object verbatim, whose status is outside
{submitted, cancelled, error, timeout}. -/
theorem returned_status_escapes_documented_set :
    getStatus (collect_comments_impl "hello" [("/submit", some weirdPayload)]).result
      = some "weird" ∧
    (some "weird" : Option String) ∉
      [some "submitted", some "cancelled", some "error", some "timeout"] := by
  exact ⟨rfl, by decide⟩

/-- C2 (amended): the statuses produced by the operations' own exit paths
are error and timeout, and provided every well-formed submission posted to
the submit endpoint carries status "submitted" or "cancelled" — as the
bundled UI clients always do — the status returned by collect_comments and
review_changes lies in {submitted, cancelled, error, timeout}. -/
theorem returned_status_in_documented_set (content : String) (changes : List Change)
    (posts : List (String × Option Json))
    (h : ∀ pr ∈ posts, pr.1 = "/submit" → ∀ j, pr.2 = some j →
      getStatus j = some "submitted" ∨ getStatus j = some "cancelled") :
    getStatus (collect_comments_impl content posts).result ∈
      [some "submitted", some "cancelled", some "error", some "timeout"] ∧
    getStatus (review_changes_impl changes posts).result ∈
      [some "submitted", some "cancelled", some "error", some "timeout"] := by
  have hsession :
      getStatus (runSession posts).result ∈
        [some "submitted", some "cancelled", some "error", some "timeout"] := by
    unfold runSession
    rcases hev : (runPosts posts).event with _ | _
    · simp [hev, timeoutResult, getStatus]
    · rcases runPosts_status posts h with hnone | ⟨j, hj, hstat⟩
      · simp [hev, hnone, errorResult, getStatus]
      · rcases hstat with hs | hs <;> simp [hev, hj, hs]
  constructor
  · by_cases hz : parse_markdown_paragraphs content = []
    · simp [collect_comments_impl, hz, errorResult, getStatus]
    · simpa [collect_comments_impl, hz] using hsession
  · by_cases hz : changes = []
    · simp [review_changes_impl, hz, errorResult, getStatus]
    · simpa [review_changes_impl, hz] using hsession

/-- Witness for the amended C2 at a concrete session: a document with one
paragraph and a single submitted payload. -/
theorem returned_status_in_documented_set_witness :
    getStatus (collect_comments_impl "hello" [("/submit", some submittedPayload)]).result ∈
      [some "submitted", some "cancelled", some "error", some "timeout"] ∧
    getStatus (review_changes_impl ([⟨0, "A", "B", "fix"⟩] : List Change)
        [("/submit", some submittedPayload)]).result ∈
      [some "submitted", some "cancelled", some "error", some "timeout"] := by
  refine returned_status_in_documented_set "hello" [⟨0, "A", "B", "fix"⟩]
    [("/submit", some submittedPayload)] ?_
  rintro pr hpr - j hj
  simp only [List.mem_singleton] at hpr
  subst hpr
  cases hj
  left; rfl

/-! ## Claim C6 -/

/-- C6: on every exit path of both operations — submitted, cancelled,
timed out, and error — the listener is closed and the scratch area is
removed at the moment the operation returns. -/
theorem resources_released_on_return (content : String) (changes : List Change)
    (posts posts' : List (String × Option Json)) :
    (collect_comments_impl content posts).resources =
      { scratchExists := false, listenerOpen := false } ∧
    (review_changes_impl changes posts').resources =
      { scratchExists := false, listenerOpen := false } := by
  constructor
  · by_cases hz : parse_markdown_paragraphs content = []
    · simp [collect_comments_impl, hz]
    · simpa [collect_comments_impl, hz] using runSession_resources posts
  · by_cases hz : changes = []
    · simp [review_changes_impl, hz]
    · simpa [review_changes_impl, hz] using runSession_resources posts'

/-! ## Claim C8 -/

/-- C8: when no well-formed submission is received before the wait bound —
which the code fixes at 7200 seconds, two hours — the operation returns a
result with status "timeout" and leaves no scratch directory behind. -/
theorem timeout_returns_timeout_status (content : String)
    (posts : List (String × Option Json))
    (hne : parse_markdown_paragraphs content ≠ [])
    (hto : (runPosts posts).event = false) :
    getStatus (collect_comments_impl content posts).result = some "timeout" ∧
    (collect_comments_impl content posts).resources.scratchExists = false ∧
    timeout = 7200 := by
  refine ⟨?_, ?_, rfl⟩
  · simp only [collect_comments_impl]
    rw [if_neg hne]
    unfold runSession
    simp [hto, timeoutResult, getStatus]
  · exact congrArg Resources.scratchExists
      (resources_released_on_return content [] posts []).1

/-- Witness for C8: a one-paragraph document and a session with no
submissions at all. -/
theorem timeout_returns_timeout_status_witness :
    getStatus (collect_comments_impl "hello" []).result = some "timeout" ∧
    (collect_comments_impl "hello" []).resources.scratchExists = false ∧
    timeout = 7200 :=
  timeout_returns_timeout_status "hello" [] (by decide) rfl

/-! ## Claim C9 -/

/-- C9: validation failures fail fast with status "error" and never start a
listener: collect_comments on content that segments to zero blocks, and
review_changes on an empty change list. -/
theorem validation_failure_fast_path (content : String) (changes : List Change)
    (posts posts' : List (String × Option Json)) :
    (parse_markdown_paragraphs content = [] →
      getStatus (collect_comments_impl content posts).result = some "error" ∧
      (collect_comments_impl content posts).serverStarted = false) ∧
    (changes = [] →
      getStatus (review_changes_impl changes posts').result = some "error" ∧
      (review_changes_impl changes posts').serverStarted = false) := by
  constructor
  · intro hzero
    refine ⟨?_, ?_⟩ <;> simp [collect_comments_impl, hzero, errorResult, getStatus]
  · intro hzero
    refine ⟨?_, ?_⟩ <;> simp [review_changes_impl, hzero, errorResult, getStatus]

/-- Witness for C9: a blank-line-only document and the empty change list. -/
theorem validation_failure_fast_path_witness :
    getStatus (collect_comments_impl "\n\n" []).result = some "error" ∧
    (collect_comments_impl "\n\n" []).serverStarted = false ∧
    getStatus (review_changes_impl ([] : List Change) []).result = some "error" ∧
    (review_changes_impl ([] : List Change) []).serverStarted = false := by
  have h := validation_failure_fast_path "\n\n" ([] : List Change) [] []
  have h1 := h.1 (by decide)
  have h2 := h.2 rfl
  exact ⟨h1.1, h1.2, h2.1, h2.2⟩

end DocEditor

namespace DocEditor

/-! ## Basic facts about stripping, splitting and joining -/

theorem forall_mem_of_dropWhile {p : Char → Bool} {l : List Char}
    (h : ∀ c ∈ l.dropWhile p, p c = true) : ∀ c ∈ l, p c = true := by
  intro c hc
  rw [← List.takeWhile_append_dropWhile p l] at hc
  rcases List.mem_append.1 hc with h1 | h2
  · exact List.mem_takeWhile_imp h1
  · exact h c h2

theorem pyStrip_eq_nil_iff {l : List Char} :
    pyStrip l = [] ↔ ∀ c ∈ l, isPySpace c = true := by
  unfold pyStrip
  rw [List.reverse_eq_nil_iff, List.dropWhile_eq_nil_iff]
  constructor
  · intro h
    refine forall_mem_of_dropWhile (p := isPySpace) ?_
    intro c hc
    exact h c (List.mem_reverse.2 hc)
  · intro h c hc
    exact h c ((List.dropWhile_sublist _).mem (List.mem_reverse.1 hc))

theorem pyStrip_append_space {l : List Char} {c : Char} (hc : isPySpace c = true) :
    pyStrip (l ++ [c]) = pyStrip l := by
  by_cases h : l.dropWhile isPySpace = []
  · have hl : ∀ d ∈ l, isPySpace d = true := by
      simpa using List.dropWhile_eq_nil_iff.1 h
    have hall : ∀ d ∈ l ++ [c], isPySpace d = true := by
      intro d hd
      rcases List.mem_append.1 hd with h1 | h2
      · exact hl d h1
      · rcases List.mem_singleton.1 h2 with rfl
        exact hc
    rw [pyStrip_eq_nil_iff.2 hall, pyStrip_eq_nil_iff.2 hl]
  · unfold pyStrip
    rw [List.dropWhile_append]
    have hne : (l.dropWhile isPySpace).isEmpty = false := by
      simpa [List.isEmpty_iff] using h
    rw [hne]
    simp only [Bool.false_eq_true, if_false, List.reverse_append, List.reverse_cons,
      List.reverse_nil, List.nil_append, List.singleton_append, List.dropWhile_cons, hc,
      if_true]

theorem splitLines_ne_nil (l : List Char) : splitLines l ≠ [] := by
  cases l with
  | nil => simp [splitLines]
  | cons c cs =>
    by_cases h : c = '\n'
    · subst h; simp [splitLines]
    · simp only [splitLines, h, if_false]
      cases hs : splitLines cs <;> simp

theorem exists_cons_of_splitLines (cs : List Char) :
    ∃ s ss, splitLines cs = s :: ss := by
  cases h : splitLines cs with
  | nil => exact absurd h (splitLines_ne_nil cs)
  | cons s ss => exact ⟨s, ss, rfl⟩

theorem splitLines_cons_nl (cs : List Char) :
    splitLines ('\n' :: cs) = [] :: splitLines cs := by
  simp [splitLines]

theorem splitLines_cons_other {c : Char} (cs : List Char) (h : ¬ c = '\n')
    {s : Line} {ss : List Line} (hss : splitLines cs = s :: ss) :
    splitLines (c :: cs) = (c :: s) :: ss := by
  simp [splitLines, h, hss]

theorem splitLines_nlFree (l : List Char) :
    ∀ s ∈ splitLines l, ∀ c ∈ s, c ≠ '\n' := by
  induction l with
  | nil =>
    intro s hs
    simp only [splitLines, List.mem_singleton] at hs
    subst hs; simp
  | cons c cs ih =>
    by_cases h : c = '\n'
    · subst h
      intro s hs
      rw [splitLines_cons_nl] at hs
      rcases List.mem_cons.1 hs with rfl | hs'
      · simp
      · exact ih s hs'
    · obtain ⟨s0, ss, hss⟩ := exists_cons_of_splitLines cs
      intro s hs
      rw [splitLines_cons_other cs h hss] at hs
      rcases List.mem_cons.1 hs with rfl | hs'
      · intro d hd
        rcases List.mem_cons.1 hd with rfl | hd'
        · exact h
        · exact ih s0 (by rw [hss]; exact List.mem_cons_self _ _) d hd'
      · exact ih s (by rw [hss]; exact List.mem_cons_of_mem _ hs')

theorem joinLines_cons_cons (a b : Line) (ls : List Line) :
    joinLines (a :: b :: ls) = a ++ '\n' :: joinLines (b :: ls) := rfl

theorem joinLines_splitLines (l : List Char) : joinLines (splitLines l) = l := by
  induction l with
  | nil => rfl
  | cons c cs ih =>
    obtain ⟨s0, ss, hss⟩ := exists_cons_of_splitLines cs
    rw [hss] at ih
    by_cases h : c = '\n'
    · subst h
      rw [splitLines_cons_nl, hss]
      show '\n' :: joinLines (s0 :: ss) = '\n' :: cs
      rw [ih]
    · rw [splitLines_cons_other cs h hss]
      cases ss with
      | nil =>
        show c :: s0 = c :: cs
        simpa [joinLines] using congrArg (c :: ·) ih
      | cons s1 ss1 =>
        rw [joinLines_cons_cons]
        rw [joinLines_cons_cons] at ih
        rw [List.cons_append, ih]

theorem splitLines_nlFree_id (a : Line) (h : ∀ c ∈ a, c ≠ '\n') :
    splitLines a = [a] := by
  induction a with
  | nil => rfl
  | cons c cs ih =>
    have hc : ¬ c = '\n' := h c (List.mem_cons_self _ _)
    have ih' := ih (fun d hd => h d (List.mem_cons_of_mem _ hd))
    simp [splitLines, hc, ih']

theorem splitLines_append_nl_cons (a : Line) (x : List Char) (h : ∀ c ∈ a, c ≠ '\n') :
    splitLines (a ++ '\n' :: x) = a :: splitLines x := by
  induction a with
  | nil => simpa using splitLines_cons_nl x
  | cons c cs ih =>
    have hc : ¬ c = '\n' := h c (List.mem_cons_self _ _)
    have ih' := ih (fun d hd => h d (List.mem_cons_of_mem _ hd))
    obtain ⟨s0, ss, hss⟩ := exists_cons_of_splitLines (cs ++ '\n' :: x)
    rw [List.cons_append, splitLines_cons_other _ hc hss]
    rw [ih'] at hss
    cases hss
    rfl

theorem splitLines_joinLines (L : List Line) (hne : L ≠ [])
    (h : ∀ s ∈ L, ∀ c ∈ s, c ≠ '\n') : splitLines (joinLines L) = L := by
  induction L with
  | nil => exact absurd rfl hne
  | cons a L ih =>
    cases L with
    | nil => exact splitLines_nlFree_id a (h a (List.mem_cons_self _ _))
    | cons b L' =>
      rw [joinLines_cons_cons,
        splitLines_append_nl_cons a _ (h a (List.mem_cons_self _ _)),
        ih (by simp) (fun s hs => h s (List.mem_cons_of_mem _ hs))]

theorem splitLines_append_nl (l : List Char) :
    splitLines (l ++ ['\n']) = splitLines l ++ [[]] := by
  induction l with
  | nil => rfl
  | cons c cs ih =>
    by_cases h : c = '\n'
    · subst h
      rw [List.cons_append, splitLines_cons_nl, ih, splitLines_cons_nl, List.cons_append]
    · obtain ⟨s0, ss, hss⟩ := exists_cons_of_splitLines cs
      have h1 : splitLines (cs ++ ['\n']) = s0 :: (ss ++ [[]]) := by
        rw [ih, hss]; rfl
      rw [List.cons_append, splitLines_cons_other _ h h1,
        splitLines_cons_other _ h hss, List.cons_append]

theorem joinLines_append (A B : List Line) (hA : A ≠ []) (hB : B ≠ []) :
    joinLines (A ++ B) = joinLines A ++ '\n' :: joinLines B := by
  induction A with
  | nil => exact absurd rfl hA
  | cons a A ih =>
    cases A with
    | nil =>
      obtain ⟨b, B', hB'⟩ := List.exists_cons_of_ne_nil hB
      subst hB'
      rfl
    | cons a2 A' =>
      have iha := ih (by simp)
      calc joinLines ((a :: a2 :: A') ++ B)
          = a ++ '\n' :: joinLines ((a2 :: A') ++ B) := rfl
        _ = a ++ '\n' :: (joinLines (a2 :: A') ++ '\n' :: joinLines B) := by rw [iha]
        _ = (a ++ '\n' :: joinLines (a2 :: A')) ++ '\n' :: joinLines B := by simp
        _ = joinLines (a :: a2 :: A') ++ '\n' :: joinLines B := rfl

theorem mem_joinLines {c : Char} {l : Line} {L : List Line}
    (hl : l ∈ L) (hc : c ∈ l) : c ∈ joinLines L := by
  induction L with
  | nil => simp at hl
  | cons a L ih =>
    cases L with
    | nil =>
      rcases List.mem_singleton.1 hl with rfl
      simpa [joinLines] using hc
    | cons b L' =>
      rw [joinLines_cons_cons]
      rcases List.mem_cons.1 hl with rfl | hl'
      · exact List.mem_append.2 (Or.inl hc)
      · exact List.mem_append.2 (Or.inr (List.mem_cons_of_mem _ (ih hl')))

theorem sepBlank_ne_nil {b : List Line} {L : List (List Line)} (hb : b ≠ []) :
    sepBlank (b :: L) ≠ [] := by
  cases L with
  | nil => simpa [sepBlank] using hb
  | cons b' L' => simp [sepBlank]

theorem sepBlank_nlFree {L : List (List Line)}
    (h : ∀ b ∈ L, ∀ s ∈ b, ∀ c ∈ s, c ≠ '\n') :
    ∀ s ∈ sepBlank L, ∀ c ∈ s, c ≠ '\n' := by
  induction L with
  | nil => simp [sepBlank]
  | cons b L ih =>
    cases L with
    | nil =>
      intro s hs
      exact h b (List.mem_cons_self _ _) s (by simpa [sepBlank] using hs)
    | cons b' L' =>
      intro s hs
      simp only [sepBlank] at hs
      rcases List.mem_append.1 hs with h1 | h2
      · exact h b (List.mem_cons_self _ _) s h1
      · rcases List.mem_cons.1 h2 with rfl | h3
        · simp
        · exact ih (fun bb hbb => h bb (List.mem_cons_of_mem _ hbb)) s h3

theorem joinBlocks_map_joinLines (L : List (List Line)) (h : ∀ b ∈ L, b ≠ []) :
    joinBlocks (L.map joinLines) = joinLines (sepBlank L) := by
  induction L with
  | nil => rfl
  | cons b L ih =>
    cases L with
    | nil => rfl
    | cons b' L' =>
      have hb : b ≠ [] := h b (List.mem_cons_self _ _)
      have ih' := ih (fun x hx => h x (List.mem_cons_of_mem _ hx))
      have hX : sepBlank (b' :: L') ≠ [] := sepBlank_ne_nil (h b' (by simp))
      obtain ⟨x, xs, hxs⟩ := List.exists_cons_of_ne_nil hX
      show joinLines b ++ '\n' :: '\n' :: joinBlocks ((b' :: L').map joinLines)
        = joinLines (sepBlank (b :: b' :: L'))
      rw [ih', show sepBlank (b :: b' :: L') = b ++ [] :: sepBlank (b' :: L') from rfl,
        joinLines_append b ([] :: sepBlank (b' :: L')) hb (by simp), hxs]
      rfl

theorem reindex_map_visible (n : Nat) (ps : List Paragraph) :
    (reindex n ps).map visible = ps.map visible := by
  induction ps generalizing n with
  | nil => rfl
  | cons p ps ih => simp [reindex, visible, ih]

theorem BlocksOK_of_forall_closed {ps : List Paragraph}
    (h : ∀ p ∈ ps, goodClosed p) : BlocksOK ps := by
  induction ps with
  | nil => trivial
  | cons p ps ih =>
    cases ps with
    | nil => exact Or.inl (h p (List.mem_cons_self _ _))
    | cons q qs =>
      exact ⟨h p (List.mem_cons_self _ _), ih (fun x hx => h x (List.mem_cons_of_mem _ hx))⟩

theorem BlocksOK_append_final {ps : List Paragraph} {q : Paragraph}
    (h : ∀ p ∈ ps, goodClosed p) (hq : goodFinal q) : BlocksOK (ps ++ [q]) := by
  induction ps with
  | nil => exact hq
  | cons p ps ih =>
    have htail : BlocksOK (ps ++ [q]) := ih (fun x hx => h x (List.mem_cons_of_mem _ hx))
    obtain ⟨r, rs, hrs⟩ : ∃ r rs, ps ++ [q] = r :: rs := by
      cases hps : ps ++ [q] with
      | nil => simp at hps
      | cons r rs => exact ⟨r, rs, rfl⟩
    show BlocksOK (p :: (ps ++ [q]))
    rw [hrs]
    exact ⟨h p (List.mem_cons_self _ _), hrs ▸ htail⟩

theorem BlocksOK_forall_final {ps : List Paragraph} (h : BlocksOK ps) :
    ∀ p ∈ ps, goodFinal p := by
  induction ps with
  | nil => simp
  | cons p ps ih =>
    cases ps with
    | nil =>
      intro q hq
      rcases List.mem_singleton.1 hq with rfl
      exact h
    | cons r rs =>
      intro q hq
      rcases List.mem_cons.1 hq with rfl | hq'
      · exact Or.inl h.1
      · exact ih h.2 q hq'

end DocEditor

namespace DocEditor

/-! ## Equations for `flush` and the branches of `step` -/

theorem flush_of_empty {st : ParseState} (h : st.current_block = []) : flush st = st := by
  simp [flush, h]

theorem flush_of_ne {st : ParseState} (h : st.current_block ≠ []) :
    flush st = { paragraphs := st.paragraphs ++ [mkPara st], current_block := [],
                 current_type := .paragraph, in_code_block := st.in_code_block,
                 idx := st.idx + 1 } := by
  simp [flush, h]

theorem flush_flush (st : ParseState) : flush (flush st) = flush st := by
  by_cases h : st.current_block = []
  · rw [flush_of_empty h, flush_of_empty h]
  · rw [flush_of_ne h, flush_of_empty rfl]

theorem step_fence_in {st : ParseState} {line : Line} (hf : isFence line = true)
    (hc : st.in_code_block = true) :
    step st line =
      flush { st with
          current_block := st.current_block ++ [line]
          in_code_block := false } := by
  unfold step
  rw [if_pos hf, if_pos hc]

theorem step_fence_out {st : ParseState} {line : Line} (hf : isFence line = true)
    (hc : st.in_code_block = false) :
    step st line =
      { flush st with
          in_code_block := true
          current_type := .code
          current_block := (flush st).current_block ++ [line] } := by
  unfold step
  rw [if_pos hf, if_neg (by simp [hc])]

theorem step_incode {st : ParseState} {line : Line} (hf : isFence line = false)
    (hc : st.in_code_block = true) :
    step st line = { st with current_block := st.current_block ++ [line] } := by
  unfold step
  rw [if_neg (by simp [hf]), if_pos hc]

theorem step_blank_eq {st : ParseState} {line : Line} (hf : isFence line = false)
    (hc : st.in_code_block = false) (hb : isBlank line = true) :
    step st line = flush st := by
  unfold step
  rw [if_neg (by simp [hf]), if_neg (by simp [hc]), if_pos hb]

theorem step_hr_eq {st : ParseState} {line : Line} (hf : isFence line = false)
    (hc : st.in_code_block = false) (hb : isBlank line = false) (hh : isHr line = true) :
    step st line =
      flush { flush st with
          current_block := (flush st).current_block ++ [line]
          current_type := .hr } := by
  unfold step
  rw [if_neg (by simp [hf]), if_neg (by simp [hc]), if_neg (by simp [hb]), if_pos hh]

theorem step_heading_eq {st : ParseState} {line : Line} (hf : isFence line = false)
    (hc : st.in_code_block = false) (hb : isBlank line = false) (hh : isHr line = false)
    (hd : isHeading line = true) :
    step st line =
      flush { flush st with
          current_block := (flush st).current_block ++ [line]
          current_type := .heading } := by
  unfold step
  rw [if_neg (by simp [hf]), if_neg (by simp [hc]), if_neg (by simp [hb]),
    if_neg (by simp [hh]), if_pos hd]

theorem step_list_new {st : ParseState} {line : Line} (hf : isFence line = false)
    (hc : st.in_code_block = false) (hb : isBlank line = false) (hh : isHr line = false)
    (hd : isHeading line = false) (hli : isListLine line = true)
    (hty : st.current_type ≠ .list) :
    step st line =
      { flush st with
          current_type := .list
          current_block := (flush st).current_block ++ [line] } := by
  unfold step
  rw [if_neg (by simp [hf]), if_neg (by simp [hc]), if_neg (by simp [hb]),
    if_neg (by simp [hh]), if_neg (by simp [hd]), if_pos hli, if_pos hty]

theorem step_list_cont {st : ParseState} {line : Line} (hf : isFence line = false)
    (hc : st.in_code_block = false) (hb : isBlank line = false) (hh : isHr line = false)
    (hd : isHeading line = false) (hli : isListLine line = true)
    (hty : st.current_type = .list) :
    step st line = { st with current_block := st.current_block ++ [line] } := by
  unfold step
  rw [if_neg (by simp [hf]), if_neg (by simp [hc]), if_neg (by simp [hb]),
    if_neg (by simp [hh]), if_neg (by simp [hd]), if_pos hli, if_neg (by simp [hty])]

theorem step_bq_new {st : ParseState} {line : Line} (hf : isFence line = false)
    (hc : st.in_code_block = false) (hb : isBlank line = false) (hh : isHr line = false)
    (hd : isHeading line = false) (hli : isListLine line = false)
    (hbq : isBqStart line = true) (hty : st.current_type ≠ .blockquote) :
    step st line =
      { flush st with
          current_type := .blockquote
          current_block := (flush st).current_block ++ [line] } := by
  unfold step
  rw [if_neg (by simp [hf]), if_neg (by simp [hc]), if_neg (by simp [hb]),
    if_neg (by simp [hh]), if_neg (by simp [hd]), if_neg (by simp [hli]), if_pos hbq,
    if_pos hty]

theorem step_bq_cont {st : ParseState} {line : Line} (hf : isFence line = false)
    (hc : st.in_code_block = false) (hb : isBlank line = false) (hh : isHr line = false)
    (hd : isHeading line = false) (hli : isListLine line = false)
    (hbq : isBqStart line = true) (hty : st.current_type = .blockquote) :
    step st line = { st with current_block := st.current_block ++ [line] } := by
  unfold step
  rw [if_neg (by simp [hf]), if_neg (by simp [hc]), if_neg (by simp [hb]),
    if_neg (by simp [hh]), if_neg (by simp [hd]), if_neg (by simp [hli]), if_pos hbq,
    if_neg (by simp [hty])]

theorem step_para_new {st : ParseState} {line : Line} (hf : isFence line = false)
    (hc : st.in_code_block = false) (hb : isBlank line = false) (hh : isHr line = false)
    (hd : isHeading line = false) (hli : isListLine line = false)
    (hbq : isBqStart line = false) (hty : st.current_type ≠ .paragraph) :
    step st line =
      { flush st with
          current_type := .paragraph
          current_block := (flush st).current_block ++ [line] } := by
  unfold step
  rw [if_neg (by simp [hf]), if_neg (by simp [hc]), if_neg (by simp [hb]),
    if_neg (by simp [hh]), if_neg (by simp [hd]), if_neg (by simp [hli]),
    if_neg (by simp [hbq]), if_pos hty]

theorem step_para_cont {st : ParseState} {line : Line} (hf : isFence line = false)
    (hc : st.in_code_block = false) (hb : isBlank line = false) (hh : isHr line = false)
    (hd : isHeading line = false) (hli : isListLine line = false)
    (hbq : isBqStart line = false) (hty : st.current_type = .paragraph) :
    step st line =
      { st with
          current_type := .paragraph
          current_block := st.current_block ++ [line] } := by
  unfold step
  rw [if_neg (by simp [hf]), if_neg (by simp [hc]), if_neg (by simp [hb]),
    if_neg (by simp [hh]), if_neg (by simp [hd]), if_neg (by simp [hli]),
    if_neg (by simp [hbq]), if_neg (by simp [hty])]

end DocEditor

namespace DocEditor

/-! ## The scan-state invariant -/

theorem GoodLines_ne_nil {t : BlockType} {ls : List Line} (h : GoodLines t ls) :
    ls ≠ [] := by
  cases h <;> simp_all

theorem OpenCodeLines_ne_nil {ls : List Line} (h : OpenCodeLines ls) : ls ≠ [] := by
  cases h; simp

theorem PendInv_goodLines {t : BlockType} {ls : List Line} (h : PendInv t ls)
    (hne : ls ≠ []) : GoodLines t ls := by
  cases t with
  | paragraph => exact GoodLines.para hne h
  | list => exact GoodLines.list hne h.2
  | blockquote => exact GoodLines.bq hne h.2
  | heading => exact absurd h (by simp [PendInv])
  | code => exact absurd h (by simp [PendInv])
  | hr => exact absurd h (by simp [PendInv])

theorem mkPara_goodClosed {st : ParseState}
    (hg : GoodLines st.current_type st.current_block)
    (hnl : nlFree st.current_block) : goodClosed (mkPara st) := by
  have hne : st.current_block ≠ [] := GoodLines_ne_nil hg
  have hsplit : splitLines (mkPara st).raw = st.current_block :=
    splitLines_joinLines _ hne hnl
  refine ⟨⟨?_, ?_⟩, ?_⟩
  · rw [hsplit]; exact hnl
  · show (mkPara st).text = pyStrip (textOf (mkPara st).block_type (splitLines (mkPara st).raw))
    rw [hsplit]; rfl
  · show GoodLines (mkPara st).block_type (splitLines (mkPara st).raw)
    rw [hsplit]; exact hg

theorem mkPara_goodOpen {st : ParseState} (ht : st.current_type = .code)
    (ho : OpenCodeLines st.current_block) (hnl : nlFree st.current_block) :
    goodOpen (mkPara st) := by
  have hne : st.current_block ≠ [] := OpenCodeLines_ne_nil ho
  have hsplit : splitLines (mkPara st).raw = st.current_block :=
    splitLines_joinLines _ hne hnl
  refine ⟨⟨?_, ?_⟩, ht, ?_⟩
  · rw [hsplit]; exact hnl
  · show (mkPara st).text = pyStrip (textOf (mkPara st).block_type (splitLines (mkPara st).raw))
    rw [hsplit]; rfl
  · show OpenCodeLines (splitLines (mkPara st).raw)
    rw [hsplit]; exact ho

theorem flush_idx_range {st : ParseState} (hidx : st.idx = st.paragraphs.length)
    (hrange : st.paragraphs.map Paragraph.index = List.range st.paragraphs.length) :
    (flush st).idx = (flush st).paragraphs.length ∧
    (flush st).paragraphs.map Paragraph.index = List.range (flush st).paragraphs.length := by
  by_cases h : st.current_block = []
  · rw [flush_of_empty h]
    exact ⟨hidx, hrange⟩
  · rw [flush_of_ne h]
    constructor
    · simp [hidx]
    · have hmk : (mkPara st).index = st.paragraphs.length := by
        simp [mkPara, hidx]
      simp only [List.map_append, List.map_cons, List.map_nil, hmk, hrange,
        List.length_append, List.length_cons, List.length_nil, Nat.add_zero]
      rw [← List.range_succ]

theorem StInv_flush_good {st : ParseState}
    (hps : ∀ p ∈ st.paragraphs, goodClosed p)
    (hnl : nlFree st.current_block)
    (hidx : st.idx = st.paragraphs.length)
    (hrange : st.paragraphs.map Paragraph.index = List.range st.paragraphs.length)
    (hb : st.current_block ≠ [])
    (hgl : GoodLines st.current_type st.current_block)
    (hc : st.in_code_block = false) :
    StInv (flush st) := by
  have hclosed := mkPara_goodClosed hgl hnl
  have hir := flush_idx_range hidx hrange
  rw [flush_of_ne hb] at hir ⊢
  refine ⟨?_, ?_, hir.1, hir.2, ?_⟩
  · intro p hp
    rcases List.mem_append.1 hp with h1 | h2
    · exact hps p h1
    · rcases List.mem_singleton.1 h2 with rfl
      exact hclosed
  · intro l hl
    simp at hl
  · rw [if_neg (by simp [hc])]
    simp [PendInv]

theorem StInv_flush {st : ParseState} (h : StInv st) (hc : st.in_code_block = false) :
    StInv (flush st) ∧ (flush st).current_block = [] ∧
    (flush st).current_type = BlockType.paragraph ∧
    (flush st).in_code_block = false := by
  obtain ⟨hps, hnl, hidx, hrange, hcond⟩ := h
  rw [if_neg (by simp [hc])] at hcond
  by_cases hb : st.current_block = []
  · have htype : st.current_type = .paragraph := by
      cases hty : st.current_type
      case paragraph => rfl
      all_goals (rw [hty] at hcond; first
        | exact absurd hb hcond.1
        | exact absurd hcond (by simp [PendInv]))
    rw [flush_of_empty hb]
    refine ⟨⟨hps, hnl, hidx, hrange, ?_⟩, hb, htype, hc⟩
    rw [if_neg (by simp [hc])]
    exact hcond
  · have hgl : GoodLines st.current_type st.current_block := PendInv_goodLines hcond hb
    have hinv := StInv_flush_good hps hnl hidx hrange hb hgl hc
    rw [flush_of_ne hb] at hinv ⊢
    exact ⟨hinv, rfl, rfl, hc⟩

end DocEditor

namespace DocEditor

theorem OpenCodeLines_destruct {ls : List Line} (h : OpenCodeLines ls) :
    ∃ f rest, ls = f :: rest ∧ isFence f = true ∧ ∀ l ∈ rest, isFence l = false := by
  cases h with
  | mk hf hrest => exact ⟨_, _, rfl, hf, hrest⟩

theorem StInv_step {st : ParseState} (h : StInv st) {line : Line}
    (hl : ∀ c ∈ line, c ≠ '\n') : StInv (step st line) := by
  obtain ⟨hps, hnl, hidx, hrange, hcond⟩ := h
  have hStInv : StInv st := ⟨hps, hnl, hidx, hrange, hcond⟩
  have hnl' : nlFree (st.current_block ++ [line]) := by
    intro l hm
    rcases List.mem_append.1 hm with h1 | h2
    · exact hnl l h1
    · rcases List.mem_singleton.1 h2 with rfl
      exact hl
  by_cases hf : isFence line = true
  · cases hcode : st.in_code_block with
    | true =>
      rw [step_fence_in hf hcode]
      rw [if_pos hcode] at hcond
      obtain ⟨hty, ho⟩ := hcond
      refine StInv_flush_good hps hnl' hidx hrange (by simp) ?_ rfl
      show GoodLines st.current_type (st.current_block ++ [line])
      obtain ⟨f, rest, hshape, hfo, hrest⟩ := OpenCodeLines_destruct ho
      rw [hty, hshape, List.cons_append]
      exact GoodLines.codeClosed hfo hrest hf
    | false =>
      rw [step_fence_out hf hcode]
      obtain ⟨⟨hps1, hnl1, hidx1, hrange1, hcond1⟩, hb1, hty1, hic1⟩ :=
        StInv_flush hStInv hcode
      refine ⟨hps1, ?_, hidx1, hrange1, ?_⟩
      · show nlFree ((flush st).current_block ++ [line])
        rw [hb1]
        intro l hm
        rcases List.mem_singleton.1 (by simpa using hm) with rfl
        exact hl
      · rw [if_pos rfl]
        refine ⟨rfl, ?_⟩
        show OpenCodeLines ((flush st).current_block ++ [line])
        rw [hb1]
        exact OpenCodeLines.mk hf (by simp)
  · have hf' : isFence line = false := by simpa using hf
    cases hcode : st.in_code_block with
    | true =>
      rw [step_incode hf' hcode]
      rw [if_pos hcode] at hcond
      obtain ⟨hty, ho⟩ := hcond
      refine ⟨hps, hnl', hidx, hrange, ?_⟩
      rw [if_pos hcode]
      refine ⟨hty, ?_⟩
      obtain ⟨f, rest, hshape, hfo, hrest⟩ := OpenCodeLines_destruct ho
      show OpenCodeLines (st.current_block ++ [line])
      rw [hshape, List.cons_append]
      refine OpenCodeLines.mk hfo ?_
      intro l hm
      rcases List.mem_append.1 hm with h1 | h2
      · exact hrest l h1
      · rcases List.mem_singleton.1 h2 with rfl
        exact hf'
    | false =>
      have hpend : PendInv st.current_type st.current_block := by
        have hc2 := hcond
        rwa [if_neg (by simp [hcode])] at hc2
      by_cases hbk : isBlank line = true
      · rw [step_blank_eq hf' hcode hbk]
        exact (StInv_flush hStInv hcode).1
      · have hbk' : isBlank line = false := by simpa using hbk
        by_cases hhr : isHr line = true
        · rw [step_hr_eq hf' hcode hbk' hhr]
          obtain ⟨⟨hps1, hnl1, hidx1, hrange1, hcond1⟩, hb1, hty1, hic1⟩ :=
            StInv_flush hStInv hcode
          refine StInv_flush_good hps1 ?_ hidx1 hrange1 (by simp) ?_ hic1
          · show nlFree ((flush st).current_block ++ [line])
            rw [hb1]
            intro l hm
            rcases List.mem_singleton.1 (by simpa using hm) with rfl
            exact hl
          · show GoodLines BlockType.hr ((flush st).current_block ++ [line])
            rw [hb1]
            exact GoodLines.hr ⟨hf', hbk', hhr⟩
        · have hhr' : isHr line = false := by simpa using hhr
          by_cases hhd : isHeading line = true
          · rw [step_heading_eq hf' hcode hbk' hhr' hhd]
            obtain ⟨⟨hps1, hnl1, hidx1, hrange1, hcond1⟩, hb1, hty1, hic1⟩ :=
              StInv_flush hStInv hcode
            refine StInv_flush_good hps1 ?_ hidx1 hrange1 (by simp) ?_ hic1
            · show nlFree ((flush st).current_block ++ [line])
              rw [hb1]
              intro l hm
              rcases List.mem_singleton.1 (by simpa using hm) with rfl
              exact hl
            · show GoodLines BlockType.heading ((flush st).current_block ++ [line])
              rw [hb1]
              exact GoodLines.heading ⟨hf', hbk', hhr', hhd⟩
          · have hhd' : isHeading line = false := by simpa using hhd
            by_cases hli : isListLine line = true
            · by_cases hty : st.current_type = .list
              · rw [step_list_cont hf' hcode hbk' hhr' hhd' hli hty]
                rw [hty] at hpend
                refine ⟨hps, hnl', hidx, hrange, ?_⟩
                rw [if_neg (by simp [hcode])]
                show PendInv st.current_type (st.current_block ++ [line])
                rw [hty]
                refine ⟨by simp, ?_⟩
                intro l hm
                rcases List.mem_append.1 hm with h1 | h2
                · exact hpend.2 l h1
                · rcases List.mem_singleton.1 h2 with rfl
                  exact ⟨hf', hbk', hhr', hhd', hli⟩
              · rw [step_list_new hf' hcode hbk' hhr' hhd' hli hty]
                obtain ⟨⟨hps1, hnl1, hidx1, hrange1, hcond1⟩, hb1, hty1, hic1⟩ :=
                  StInv_flush hStInv hcode
                refine ⟨hps1, ?_, hidx1, hrange1, ?_⟩
                · show nlFree ((flush st).current_block ++ [line])
                  rw [hb1]
                  intro l hm
                  rcases List.mem_singleton.1 (by simpa using hm) with rfl
                  exact hl
                · rw [if_neg (by simp [hic1])]
                  show PendInv BlockType.list ((flush st).current_block ++ [line])
                  rw [hb1]
                  refine ⟨by simp, ?_⟩
                  intro l hm
                  rcases List.mem_singleton.1 (by simpa using hm) with rfl
                  exact ⟨hf', hbk', hhr', hhd', hli⟩
            · have hli' : isListLine line = false := by simpa using hli
              by_cases hbq : isBqStart line = true
              · by_cases hty : st.current_type = .blockquote
                · rw [step_bq_cont hf' hcode hbk' hhr' hhd' hli' hbq hty]
                  rw [hty] at hpend
                  refine ⟨hps, hnl', hidx, hrange, ?_⟩
                  rw [if_neg (by simp [hcode])]
                  show PendInv st.current_type (st.current_block ++ [line])
                  rw [hty]
                  refine ⟨by simp, ?_⟩
                  intro l hm
                  rcases List.mem_append.1 hm with h1 | h2
                  · exact hpend.2 l h1
                  · rcases List.mem_singleton.1 h2 with rfl
                    exact ⟨hf', hbk', hhr', hhd', hli', hbq⟩
                · rw [step_bq_new hf' hcode hbk' hhr' hhd' hli' hbq hty]
                  obtain ⟨⟨hps1, hnl1, hidx1, hrange1, hcond1⟩, hb1, hty1, hic1⟩ :=
                    StInv_flush hStInv hcode
                  refine ⟨hps1, ?_, hidx1, hrange1, ?_⟩
                  · show nlFree ((flush st).current_block ++ [line])
                    rw [hb1]
                    intro l hm
                    rcases List.mem_singleton.1 (by simpa using hm) with rfl
                    exact hl
                  · rw [if_neg (by simp [hic1])]
                    show PendInv BlockType.blockquote ((flush st).current_block ++ [line])
                    rw [hb1]
                    refine ⟨by simp, ?_⟩
                    intro l hm
                    rcases List.mem_singleton.1 (by simpa using hm) with rfl
                    exact ⟨hf', hbk', hhr', hhd', hli', hbq⟩
              · have hbq' : isBqStart line = false := by simpa using hbq
                by_cases hty : st.current_type = .paragraph
                · rw [step_para_cont hf' hcode hbk' hhr' hhd' hli' hbq' hty]
                  rw [hty] at hpend
                  refine ⟨hps, hnl', hidx, hrange, ?_⟩
                  rw [if_neg (by simp [hcode])]
                  show PendInv BlockType.paragraph (st.current_block ++ [line])
                  intro l hm
                  rcases List.mem_append.1 hm with h1 | h2
                  · exact hpend l h1
                  · rcases List.mem_singleton.1 h2 with rfl
                    exact ⟨hf', hbk', hhr', hhd', hli', hbq'⟩
                · rw [step_para_new hf' hcode hbk' hhr' hhd' hli' hbq' hty]
                  obtain ⟨⟨hps1, hnl1, hidx1, hrange1, hcond1⟩, hb1, hty1, hic1⟩ :=
                    StInv_flush hStInv hcode
                  refine ⟨hps1, ?_, hidx1, hrange1, ?_⟩
                  · show nlFree ((flush st).current_block ++ [line])
                    rw [hb1]
                    intro l hm
                    rcases List.mem_singleton.1 (by simpa using hm) with rfl
                    exact hl
                  · rw [if_neg (by simp [hic1])]
                    show PendInv BlockType.paragraph ((flush st).current_block ++ [line])
                    rw [hb1]
                    intro l hm
                    rcases List.mem_singleton.1 (by simpa using hm) with rfl
                    exact ⟨hf', hbk', hhr', hhd', hli', hbq'⟩

theorem StInv_init : StInv initState := by
  refine ⟨by simp [initState], ?_, rfl, rfl, ?_⟩
  · intro l hl
    simp [initState] at hl
  · rw [if_neg (by simp [initState])]
    show PendInv BlockType.paragraph []
    intro l hl
    simp at hl

theorem StInv_foldl {st : ParseState} (h : StInv st) (ls : List Line)
    (hls : ∀ l ∈ ls, ∀ c ∈ l, c ≠ '\n') : StInv (ls.foldl step st) := by
  induction ls generalizing st with
  | nil => exact h
  | cons l ls ih =>
    exact ih (StInv_step h (hls l (List.mem_cons_self _ _)))
      (fun x hx => hls x (List.mem_cons_of_mem _ hx))

theorem parseLines_BlocksOK (ls : List Line)
    (hls : ∀ l ∈ ls, ∀ c ∈ l, c ≠ '\n') : BlocksOK (parseLines ls) := by
  obtain ⟨hps, hnl, hidx, hrange, hcond⟩ := StInv_foldl StInv_init ls hls
  unfold parseLines
  by_cases hb : (ls.foldl step initState).current_block = []
  · rw [flush_of_empty hb]
    exact BlocksOK_of_forall_closed hps
  · rw [flush_of_ne hb]
    refine BlocksOK_append_final hps ?_
    cases hcode : (ls.foldl step initState).in_code_block with
    | true =>
      rw [if_pos hcode] at hcond
      exact Or.inr (mkPara_goodOpen hcond.1 hcond.2 hnl)
    | false =>
      rw [if_neg (by simp [hcode])] at hcond
      exact Or.inl (mkPara_goodClosed (PendInv_goodLines hcond hb) hnl)

theorem parse_markdown_paragraphs_BlocksOK (content : String) :
    BlocksOK (parse_markdown_paragraphs content) :=
  parseLines_BlocksOK _ (splitLines_nlFree _)

end DocEditor

namespace DocEditor

/-! ## Claims C4 and C5 -/

/-- C4: for every input string, the blocks' index fields are exactly
0..N-1 in document order — dense, strictly ascending, assigned at flush
time. -/
theorem block_indices_dense_ascending (content : String) :
    (parse_markdown_paragraphs content).map Paragraph.index
      = List.range (parse_markdown_paragraphs content).length := by
  obtain ⟨hps, hnl, hidx, hrange, hcond⟩ :=
    StInv_foldl StInv_init (splitLines content.toList) (splitLines_nlFree _)
  unfold parse_markdown_paragraphs parseLines
  exact (flush_idx_range hidx hrange).2

theorem pyStrip_ne_nil_of_mem {l : List Char} {c : Char} (hc : c ∈ l)
    (hns : isPySpace c = false) : pyStrip l ≠ [] := by
  intro h
  have h2 := pyStrip_eq_nil_iff.1 h c hc
  rw [hns] at h2
  exact Bool.false_ne_true h2

theorem exists_nonspace_of_pyStrip_ne {l : List Char} (h : pyStrip l ≠ []) :
    ∃ c ∈ l, isPySpace c = false := by
  by_contra hall
  push_neg at hall
  refine h (pyStrip_eq_nil_iff.2 ?_)
  intro c hc
  have h2 := hall c hc
  cases hb : isPySpace c
  · exact absurd hb h2
  · rfl

theorem isBlank_false_pyStrip {l : Line} (h : isBlank l = false) : pyStrip l ≠ [] := by
  intro h2
  rw [isBlank, h2] at h
  simp at h

theorem isFence_pyStrip {l : Line} (h : isFence l = true) : pyStrip l ≠ [] := by
  intro h2
  rw [isFence, h2] at h
  simp [List.isPrefixOf] at h

theorem GoodLines_destruct {t : BlockType} {ls : List Line} (h : GoodLines t ls) :
    (∃ l, ls = [l] ∧ t = .hr ∧ LHr l) ∨
    (∃ l, ls = [l] ∧ t = .heading ∧ LHeading l) ∨
    (t = .paragraph ∧ ls ≠ [] ∧ ∀ l ∈ ls, LPara l) ∨
    (t = .list ∧ ls ≠ [] ∧ ∀ l ∈ ls, LList l) ∨
    (t = .blockquote ∧ ls ≠ [] ∧ ∀ l ∈ ls, LBq l) ∨
    (∃ f mid g, ls = f :: mid ++ [g] ∧ t = .code ∧ isFence f = true ∧
      (∀ l ∈ mid, isFence l = false) ∧ isFence g = true) := by
  cases h with
  | hr hl => exact Or.inl ⟨_, rfl, rfl, hl⟩
  | heading hl => exact Or.inr (Or.inl ⟨_, rfl, rfl, hl⟩)
  | para hne hall => exact Or.inr (Or.inr (Or.inl ⟨rfl, hne, hall⟩))
  | list hne hall => exact Or.inr (Or.inr (Or.inr (Or.inl ⟨rfl, hne, hall⟩)))
  | bq hne hall => exact Or.inr (Or.inr (Or.inr (Or.inr (Or.inl ⟨rfl, hne, hall⟩))))
  | codeClosed hf hmid hg =>
    exact Or.inr (Or.inr (Or.inr (Or.inr (Or.inr ⟨_, _, _, rfl, rfl, hf, hmid, hg⟩))))

theorem goodFinal_exists_nonblank_line {p : Paragraph} (h : goodFinal p) :
    ∃ l ∈ splitLines p.raw, pyStrip l ≠ [] := by
  rcases h with ⟨hcore, hgl⟩ | ⟨hcore, hty, ho⟩
  · rcases GoodLines_destruct hgl with
      ⟨l, hcons, -, hhr⟩ | ⟨l, hcons, -, hh⟩ | ⟨-, hne, hall⟩ | ⟨-, hne, hall⟩ |
      ⟨-, hne, hall⟩ | ⟨f, mid, g, hcons, -, hf, -, -⟩
    · exact ⟨l, by rw [hcons]; exact List.mem_singleton.2 rfl,
        isBlank_false_pyStrip hhr.2.1⟩
    · exact ⟨l, by rw [hcons]; exact List.mem_singleton.2 rfl,
        isBlank_false_pyStrip hh.2.1⟩
    · obtain ⟨l, ls', hcons⟩ := List.exists_cons_of_ne_nil hne
      refine ⟨l, by rw [hcons]; exact List.mem_cons_self _ _, ?_⟩
      exact isBlank_false_pyStrip
        (hall l (by rw [hcons]; exact List.mem_cons_self _ _)).2.1
    · obtain ⟨l, ls', hcons⟩ := List.exists_cons_of_ne_nil hne
      refine ⟨l, by rw [hcons]; exact List.mem_cons_self _ _, ?_⟩
      exact isBlank_false_pyStrip
        (hall l (by rw [hcons]; exact List.mem_cons_self _ _)).2.1
    · obtain ⟨l, ls', hcons⟩ := List.exists_cons_of_ne_nil hne
      refine ⟨l, by rw [hcons]; exact List.mem_cons_self _ _, ?_⟩
      exact isBlank_false_pyStrip
        (hall l (by rw [hcons]; exact List.mem_cons_self _ _)).2.1
    · exact ⟨f, by rw [hcons]; exact List.mem_cons_self _ _, isFence_pyStrip hf⟩
  · obtain ⟨f, rest, hshape, hf, hrest⟩ := OpenCodeLines_destruct ho
    exact ⟨f, by rw [hshape]; exact List.mem_cons_self _ _, isFence_pyStrip hf⟩

/-- C5 is violated by the code: `flush` only checks that the buffered line
list is non-empty, not that the stripped text is; on input `">"` the single
emitted blockquote block has an empty display text. -/
theorem blockquote_marker_only_block_empty_display :
    (parse_markdown_paragraphs ">").map Paragraph.text = [[]] ∧
    parse_markdown_paragraphs ">" ≠ [] := by
  constructor
  · decide
  · decide

/-- C5 (amended): for every input string, every block produced by
segmentation has a raw_text that is non-blank (a flushed segment is
discarded only when its buffered line list is empty, and every kept buffer
contains a non-blank line); the display_text, however, can be empty after
stripping, e.g. for input ">". -/
theorem block_raw_nonblank (content : String) :
    ∀ p ∈ parse_markdown_paragraphs content, pyStrip p.raw ≠ [] := by
  intro p hp
  have hfin := BlocksOK_forall_final (parse_markdown_paragraphs_BlocksOK content) p hp
  obtain ⟨l, hlmem, hlne⟩ := goodFinal_exists_nonblank_line hfin
  obtain ⟨c, hcl, hcs⟩ := exists_nonspace_of_pyStrip_ne hlne
  have hcraw : c ∈ p.raw := by
    have hm := mem_joinLines hlmem hcl
    rwa [joinLines_splitLines] at hm
  exact pyStrip_ne_nil_of_mem hcraw hcs

/-- Witness for the amended C5 at the concrete counterexample input. -/
theorem block_raw_nonblank_witness :
    pyStrip (Paragraph.mk 0 [] ['>'] BlockType.blockquote).raw ≠ [] :=
  block_raw_nonblank ">" (Paragraph.mk 0 [] ['>'] BlockType.blockquote) (by decide)

end DocEditor

namespace DocEditor

/-! ## Re-parsing the reconstruction -/

theorem isFence_nil : isFence ([] : Line) = false := rfl

theorem isBlank_nil : isBlank ([] : Line) = true := rfl

theorem foldl_pend_extend {t : BlockType}
    (hT : t = .paragraph ∨ t = .list ∨ t = .blockquote) (ls : List Line) :
    ∀ s : ParseState, (∀ l ∈ ls, pendPred t l) → s.current_block ≠ [] →
      s.in_code_block = false → s.current_type = t →
      ls.foldl step s = { s with current_block := s.current_block ++ ls } := by
  induction ls with
  | nil =>
    intro s _ _ _ _
    show s = { s with current_block := s.current_block ++ [] }
    cases s
    simp
  | cons l ls ih =>
    intro s hall hb hc hty
    have hpl := hall l (List.mem_cons_self _ _)
    have hstep : step s l = { s with current_block := s.current_block ++ [l] } := by
      rcases hT with rfl | rfl | rfl
      · obtain ⟨hf, hbk, hhr, hhd, hli, hbq⟩ := hpl
        rw [step_para_cont hf hc hbk hhr hhd hli hbq hty]
        cases s
        simp_all
      · obtain ⟨hf, hbk, hhr, hhd, hli⟩ := hpl
        exact step_list_cont hf hc hbk hhr hhd hli hty
      · obtain ⟨hf, hbk, hhr, hhd, hli, hbq⟩ := hpl
        exact step_bq_cont hf hc hbk hhr hhd hli hbq hty
    rw [List.foldl_cons, hstep,
      ih { s with current_block := s.current_block ++ [l] }
        (fun x hx => hall x (List.mem_cons_of_mem _ hx)) (by simp) hc hty]
    cases s
    simp

theorem foldl_pend {t : BlockType}
    (hT : t = .paragraph ∨ t = .list ∨ t = .blockquote) {ls : List Line}
    (hne : ls ≠ []) (hall : ∀ l ∈ ls, pendPred t l) (s : ParseState)
    (hb : s.current_block = []) (hc : s.in_code_block = false)
    (hty : s.current_type = .paragraph) :
    ls.foldl step s = { s with current_block := ls, current_type := t } := by
  obtain ⟨l, ls', rfl⟩ := List.exists_cons_of_ne_nil hne
  have hpl := hall l (List.mem_cons_self _ _)
  have hstep : step s l = { s with current_block := [l], current_type := t } := by
    rcases hT with rfl | rfl | rfl
    · obtain ⟨hf, hbk, hhr, hhd, hli, hbq⟩ := hpl
      rw [step_para_cont hf hc hbk hhr hhd hli hbq hty]
      cases s
      simp_all
    · obtain ⟨hf, hbk, hhr, hhd, hli⟩ := hpl
      rw [step_list_new hf hc hbk hhr hhd hli (by rw [hty]; simp), flush_of_empty hb]
      cases s
      simp_all
    · obtain ⟨hf, hbk, hhr, hhd, hli, hbq⟩ := hpl
      rw [step_bq_new hf hc hbk hhr hhd hli hbq (by rw [hty]; simp), flush_of_empty hb]
      cases s
      simp_all
  rw [List.foldl_cons, hstep,
    foldl_pend_extend hT ls' { s with current_block := [l], current_type := t }
      (fun x hx => hall x (List.mem_cons_of_mem _ hx)) (by simp) hc rfl]
  cases s
  simp

theorem foldl_code_extend (ls : List Line) :
    ∀ s : ParseState, (∀ l ∈ ls, isFence l = false) → s.in_code_block = true →
      ls.foldl step s = { s with current_block := s.current_block ++ ls } := by
  induction ls with
  | nil =>
    intro s _ _
    show s = { s with current_block := s.current_block ++ [] }
    cases s
    simp
  | cons l ls ih =>
    intro s hall hc
    rw [List.foldl_cons, step_incode (hall l (List.mem_cons_self _ _)) hc,
      ih { s with current_block := s.current_block ++ [l] }
        (fun x hx => hall x (List.mem_cons_of_mem _ hx)) hc]
    cases s
    simp

theorem step_fence_open_clean {f : Line} (hf : isFence f = true) (s : ParseState)
    (hb : s.current_block = []) (hc : s.in_code_block = false) :
    step s f = { s with
        current_block := [f]
        current_type := .code
        in_code_block := true } := by
  rw [step_fence_out hf hc, flush_of_empty hb]
  cases s
  simp_all

theorem foldl_goodLines {t : BlockType} {ls : List Line} (hg : GoodLines t ls)
    (s : ParseState) (hb : s.current_block = []) (hc : s.in_code_block = false)
    (hty : s.current_type = .paragraph) :
    (ls.foldl step s).in_code_block = false ∧
    flush (ls.foldl step s) =
      { s with paragraphs := s.paragraphs ++ [emitPara s.idx t ls],
               idx := s.idx + 1 } := by
  rcases GoodLines_destruct hg with
    ⟨l, rfl, rfl, hhr⟩ | ⟨l, rfl, rfl, hh⟩ | ⟨rfl, hne, hall⟩ | ⟨rfl, hne, hall⟩ |
    ⟨rfl, hne, hall⟩ | ⟨f, mid, g, rfl, rfl, hf, hmid, hgf⟩
  · obtain ⟨hf, hbk, hhr'⟩ := hhr
    have hstep : step s l =
        { s with paragraphs := s.paragraphs ++ [emitPara s.idx .hr [l]],
                 idx := s.idx + 1 } := by
      rw [step_hr_eq hf hc hbk hhr', flush_of_empty hb,
        @flush_of_ne { s with
          current_block := s.current_block ++ [l]
          current_type := BlockType.hr } (by simp)]
      cases s
      simp_all [emitPara, mkPara]
    rw [List.foldl_cons, List.foldl_nil, hstep]
    exact ⟨hc, flush_of_empty hb⟩
  · obtain ⟨hf, hbk, hhr', hhd⟩ := hh
    have hstep : step s l =
        { s with paragraphs := s.paragraphs ++ [emitPara s.idx .heading [l]],
                 idx := s.idx + 1 } := by
      rw [step_heading_eq hf hc hbk hhr' hhd, flush_of_empty hb,
        @flush_of_ne { s with
          current_block := s.current_block ++ [l]
          current_type := BlockType.heading } (by simp)]
      cases s
      simp_all [emitPara, mkPara]
    rw [List.foldl_cons, List.foldl_nil, hstep]
    exact ⟨hc, flush_of_empty hb⟩
  · rw [foldl_pend (Or.inl rfl) hne (by simpa [pendPred] using hall) s hb hc hty]
    refine ⟨hc, ?_⟩
    rw [@flush_of_ne { s with current_block := ls, current_type := BlockType.paragraph }
      (by simpa using hne)]
    cases s
    simp_all [emitPara, mkPara]
  · rw [foldl_pend (Or.inr (Or.inl rfl)) hne (by simpa [pendPred] using hall) s hb hc hty]
    refine ⟨hc, ?_⟩
    rw [@flush_of_ne { s with current_block := ls, current_type := BlockType.list }
      (by simpa using hne)]
    cases s
    simp_all [emitPara, mkPara]
  · rw [foldl_pend (Or.inr (Or.inr rfl)) hne (by simpa [pendPred] using hall) s hb hc hty]
    refine ⟨hc, ?_⟩
    rw [@flush_of_ne { s with current_block := ls, current_type := BlockType.blockquote }
      (by simpa using hne)]
    cases s
    simp_all [emitPara, mkPara]
  · rw [List.cons_append, List.foldl_cons, step_fence_open_clean hf s hb hc,
      List.foldl_append,
      foldl_code_extend mid { s with
        current_block := [f]
        current_type := .code
        in_code_block := true } hmid rfl,
      List.foldl_cons, List.foldl_nil, step_fence_in hgf rfl,
      @flush_of_ne { s with
        current_block := [f] ++ mid ++ [g]
        current_type := BlockType.code
        in_code_block := false } (by simp)]
    refine ⟨rfl, ?_⟩
    refine (flush_of_empty rfl).trans ?_
    cases s
    simp_all [emitPara, mkPara]

theorem foldl_openCode {ls : List Line} (ho : OpenCodeLines ls)
    (s : ParseState) (hb : s.current_block = []) (hc : s.in_code_block = false)
    (hty : s.current_type = .paragraph) :
    flush (ls.foldl step s) =
      { s with paragraphs := s.paragraphs ++ [emitPara s.idx .code ls],
               idx := s.idx + 1,
               in_code_block := true } := by
  obtain ⟨f, rest, rfl, hf, hrest⟩ := OpenCodeLines_destruct ho
  rw [List.foldl_cons, step_fence_open_clean hf s hb hc,
    foldl_code_extend rest { s with
      current_block := [f]
      current_type := .code
      in_code_block := true } hrest rfl,
    @flush_of_ne { s with
      current_block := [f] ++ rest
      current_type := BlockType.code
      in_code_block := true } (by simp)]
  cases s
  simp_all [emitPara, mkPara]

theorem emitPara_good {p : Paragraph} (n : Nat) (hcore : goodCore p) :
    emitPara n p.block_type (splitLines p.raw) = { p with index := n } := by
  obtain ⟨hnl, htext⟩ := hcore
  cases p with
  | mk i tx rr ty =>
    show Paragraph.mk n (pyStrip (textOf ty (splitLines rr))) (joinLines (splitLines rr)) ty
      = Paragraph.mk n tx rr ty
    rw [joinLines_splitLines, ← htext]

end DocEditor

namespace DocEditor

theorem foldl_sepBlank {bs : List Paragraph} (hok : BlocksOK bs) :
    ∀ (acc : List Paragraph) (n : Nat),
      (flush ((sepBlank (bs.map (fun p => splitLines p.raw))).foldl step
        (cleanSt acc n))).paragraphs = acc ++ reindex n bs := by
  induction bs with
  | nil =>
    intro acc n
    show (flush (cleanSt acc n)).paragraphs = acc ++ reindex n []
    rw [flush_of_empty rfl]
    simp [cleanSt, reindex]
  | cons b bs ih =>
    intro acc n
    cases bs with
    | nil =>
      show (flush ((splitLines b.raw).foldl step (cleanSt acc n))).paragraphs
        = acc ++ reindex n [b]
      have hfin : goodFinal b := hok
      rcases hfin with ⟨hcore, hgl⟩ | ⟨hcore, htyc, ho⟩
      · rw [(foldl_goodLines hgl (cleanSt acc n) rfl rfl rfl).2]
        show acc ++ [emitPara n b.block_type (splitLines b.raw)] = acc ++ reindex n [b]
        rw [emitPara_good n hcore]
        rfl
      · rw [foldl_openCode ho (cleanSt acc n) rfl rfl rfl]
        show acc ++ [emitPara n BlockType.code (splitLines b.raw)] = acc ++ reindex n [b]
        rw [← htyc, emitPara_good n hcore]
        rfl
    | cons b2 bs2 =>
      obtain ⟨hclosed, hok2⟩ := hok
      show (flush ((splitLines b.raw ++
          [] :: sepBlank ((b2 :: bs2).map (fun p => splitLines p.raw))).foldl step
          (cleanSt acc n))).paragraphs = acc ++ reindex n (b :: b2 :: bs2)
      rw [List.foldl_append, List.foldl_cons]
      have hfg := foldl_goodLines hclosed.2 (cleanSt acc n) rfl rfl rfl
      rw [step_blank_eq isFence_nil hfg.1 isBlank_nil, hfg.2]
      have hrec : ({ cleanSt acc n with
          paragraphs := (cleanSt acc n).paragraphs ++
            [emitPara (cleanSt acc n).idx b.block_type (splitLines b.raw)]
          idx := (cleanSt acc n).idx + 1 } : ParseState)
          = cleanSt (acc ++ [{ b with index := n }]) (n + 1) := by
        show ({ cleanSt acc n with
          paragraphs := acc ++ [emitPara n b.block_type (splitLines b.raw)]
          idx := n + 1 } : ParseState) = _
        rw [emitPara_good n hclosed.1]
        rfl
      rw [hrec]
      have hihh := ih hok2 (acc ++ [{ b with index := n }]) (n + 1)
      rw [hihh, List.append_assoc]
      rfl

/-- C3: for every input string — in particular, every input without
pathological mixed fencing — segmenting the document reconstructed from
segmentation's own blocks (raw texts rejoined with blank-line separators in
index order) yields the same sequence of block types and display texts as
segmenting the original input. -/
theorem segmentation_roundtrip_stable (content : String) :
    (parse_markdown_paragraphs (reconstructDoc (parse_markdown_paragraphs content))).map
        visible
      = (parse_markdown_paragraphs content).map visible := by
  have hok := parse_markdown_paragraphs_BlocksOK content
  cases hbs : parse_markdown_paragraphs content with
  | nil => decide
  | cons b0 bs0 =>
    rw [hbs] at hok
    have h2 : (b0 :: bs0).map (fun p => p.raw)
        = ((b0 :: bs0).map (fun p => splitLines p.raw)).map joinLines := by
      rw [List.map_map]
      refine (List.map_congr_left ?_).symm
      intro p hp
      exact joinLines_splitLines p.raw
    have h3 : joinBlocks (((b0 :: bs0).map (fun p => splitLines p.raw)).map joinLines)
        = joinLines (sepBlank ((b0 :: bs0).map (fun p => splitLines p.raw))) := by
      refine joinBlocks_map_joinLines _ ?_
      intro x hx
      obtain ⟨p, hp, rfl⟩ := List.mem_map.1 hx
      exact splitLines_ne_nil _
    have h4 : splitLines (joinLines (sepBlank ((b0 :: bs0).map (fun p => splitLines p.raw))))
        = sepBlank ((b0 :: bs0).map (fun p => splitLines p.raw)) := by
      refine splitLines_joinLines _ ?_ ?_
      · simp only [List.map_cons]
        exact sepBlank_ne_nil (splitLines_ne_nil _)
      · refine sepBlank_nlFree ?_
        intro bb hbb x hx
        obtain ⟨p, hp, rfl⟩ := List.mem_map.1 hbb
        exact splitLines_nlFree p.raw x hx
    have h5 : (reconstructDoc (b0 :: bs0)).toList
        = joinLines (sepBlank ((b0 :: bs0).map (fun p => splitLines p.raw))) := by
      show joinBlocks ((b0 :: bs0).map (fun p => p.raw)) = _
      rw [h2, h3]
    show (parseLines (splitLines (reconstructDoc (b0 :: bs0)).toList)).map visible
      = (b0 :: bs0).map visible
    rw [h5, h4]
    show (flush ((sepBlank ((b0 :: bs0).map (fun p => splitLines p.raw))).foldl step
      (cleanSt [] 0))).paragraphs.map visible = (b0 :: bs0).map visible
    rw [foldl_sepBlank hok [] 0, List.nil_append, reindex_map_visible]

end DocEditor

namespace DocEditor

/-! ## Trailing newline -/

theorem parseLines_eq (ls : List Line) :
    parseLines ls = (flush (ls.foldl step initState)).paragraphs := rfl

theorem isFence_of_rawPrefix {l : Line}
    (h : List.isPrefixOf ['`', '`', '`'] l = true) : isFence l = true := by
  obtain ⟨t, ht⟩ := List.isPrefixOf_iff_prefix.1 h
  subst ht
  unfold isFence pyStrip
  have hsp : isPySpace '`' = false := rfl
  rw [show (['`', '`', '`'] ++ t : List Char) = '`' :: ('`' :: ('`' :: t)) from rfl,
    List.dropWhile_cons, hsp]
  simp only [Bool.false_eq_true, if_false]
  rw [show ('`' :: ('`' :: ('`' :: t))).reverse = t.reverse ++ ['`', '`', '`'] from by simp,
    List.dropWhile_append]
  by_cases he : (t.reverse.dropWhile isPySpace).isEmpty = true
  · rw [he, if_pos rfl]
    rw [show (['`', '`', '`'] : List Char).dropWhile isPySpace = ['`', '`', '`'] from rfl]
    rfl
  · rw [if_neg (by simp [he])]
    rw [List.reverse_append]
    rw [show (['`', '`', '`'] : List Char).reverse = ['`', '`', '`'] from rfl]
    simp [List.isPrefixOf]

theorem mem_of_getLast?_eq {l : List Line} {a : Line} (h : l.getLast? = some a) : a ∈ l :=
  List.mem_of_mem_getLast? (by rw [h]; exact Option.mem_some_iff.2 rfl)

theorem dropFences_cons_eq (f : Line) (R : List Line) :
    dropFences (f :: R) =
      if List.isPrefixOf ['`', '`', '`'] f then
        (match R.getLast? with
         | some lastL => if List.isPrefixOf ['`', '`', '`'] lastL then R.dropLast else R
         | none => R)
      else
        (match (f :: R).getLast? with
         | some lastL => if List.isPrefixOf ['`', '`', '`'] lastL then (f :: R).dropLast
                         else f :: R
         | none => f :: R) := by
  by_cases h : List.isPrefixOf ['`', '`', '`'] f = true
  · simp [dropFences, h]
  · simp [dropFences, h]

theorem pyStrip_joinLines_append_blank (L : List Line) :
    pyStrip (joinLines (L ++ [[]])) = pyStrip (joinLines L) := by
  cases hL : L with
  | nil => rfl
  | cons x xs =>
    rw [joinLines_append (x :: xs) [[]] (by simp) (by simp)]
    rw [show joinLines [[]] = [] from rfl]
    exact pyStrip_append_space rfl

theorem textOf_code_append_blank {f : Line} {rest : List Line}
    (_hf : isFence f = true) (hrest : ∀ l ∈ rest, isFence l = false) :
    pyStrip (textOf .code ((f :: rest) ++ [[]])) = pyStrip (textOf .code (f :: rest)) := by
  have hrawrest : ∀ l ∈ rest, List.isPrefixOf ['`', '`', '`'] l = false := by
    intro l hl
    cases hr : List.isPrefixOf ['`', '`', '`'] l
    · rfl
    · exact absurd (isFence_of_rawPrefix hr) (by simp [hrest l hl])
  show pyStrip (joinLines (dropFences (f :: (rest ++ [[]]))))
    = pyStrip (joinLines (dropFences (f :: rest)))
  by_cases hrawf : List.isPrefixOf ['`', '`', '`'] f = true
  · have hX : dropFences (f :: (rest ++ [[]])) = rest ++ [[]] := by
      rw [dropFences_cons_eq, if_pos hrawf, List.getLast?_concat]
      rfl
    have hO : dropFences (f :: rest) = rest := by
      rw [dropFences_cons_eq, if_pos hrawf]
      cases hlast : rest.getLast? with
      | none => rfl
      | some lastL =>
        have hmem : lastL ∈ rest := mem_of_getLast?_eq hlast
        simp [hrawrest lastL hmem]
    rw [hX, hO]
    exact pyStrip_joinLines_append_blank rest
  · have hX : dropFences (f :: (rest ++ [[]])) = f :: (rest ++ [[]]) := by
      rw [dropFences_cons_eq, if_neg hrawf,
        show f :: (rest ++ [[]]) = (f :: rest) ++ [[]] from rfl, List.getLast?_concat]
      rfl
    have hO : dropFences (f :: rest) = f :: rest := by
      rw [dropFences_cons_eq, if_neg hrawf,
        List.getLast?_eq_getLast_of_ne_nil (List.cons_ne_nil f rest)]
      have hmem := List.getLast_mem (List.cons_ne_nil f rest)
      rcases List.mem_cons.1 hmem with heq | hmem'
      · rw [heq]
        simp [hrawf]
      · simp [hrawrest _ hmem']
    rw [hX, hO, show f :: (rest ++ [[]]) = (f :: rest) ++ [[]] from rfl]
    exact pyStrip_joinLines_append_blank (f :: rest)

/-- C10: for every input string, appending a trailing newline leaves the
number of blocks, their types and their display texts unchanged. -/
theorem trailing_newline_invisible (s : String) :
    (parse_markdown_paragraphs (s ++ "\n")).map visible
      = (parse_markdown_paragraphs s).map visible := by
  have hgen : ∀ F : ParseState, StInv F →
      (flush (step F [])).paragraphs.map visible
        = (flush F).paragraphs.map visible := by
    intro F hinv
    obtain ⟨hps, hnl, hidx, hrange, hcond⟩ := hinv
    cases hcode : F.in_code_block with
    | false => rw [step_blank_eq isFence_nil hcode isBlank_nil, flush_flush]
    | true =>
      rw [step_incode isFence_nil hcode]
      rw [if_pos hcode] at hcond
      obtain ⟨htyF, ho⟩ := hcond
      have hbne : F.current_block ≠ [] := OpenCodeLines_ne_nil ho
      obtain ⟨f, rest, hshape, hff, hrest⟩ := OpenCodeLines_destruct ho
      rw [@flush_of_ne { F with current_block := F.current_block ++ [[]] } (by simp),
        flush_of_ne hbne]
      have hvis : visible (mkPara { F with current_block := F.current_block ++ [[]] })
          = visible (mkPara F) := by
        unfold visible mkPara
        show (F.current_type, pyStrip (textOf F.current_type (F.current_block ++ [[]])))
          = (F.current_type, pyStrip (textOf F.current_type F.current_block))
        rw [htyF, hshape, List.cons_append]
        exact congrArg (fun x => (BlockType.code, x))
          (by
            rw [← List.cons_append]
            exact textOf_code_append_blank hff hrest)
      simp only [List.map_append, List.map_cons, List.map_nil]
      rw [hvis]
  have htl : (s ++ "\n").toList = s.toList ++ ['\n'] := String.data_append s "\n"
  show (parseLines (splitLines (s ++ "\n").toList)).map visible
    = (parseLines (splitLines s.toList)).map visible
  rw [htl, splitLines_append_nl, parseLines_eq, parseLines_eq, List.foldl_append,
    List.foldl_cons, List.foldl_nil]
  exact hgen _ (StInv_foldl StInv_init _ (splitLines_nlFree _))

end DocEditor
